import Mathlib

/-!
Verification of the tinyecs entity-component engine.

The development shallowly embeds the two variants of the engine found in the
repository:

* namespace `Tinyecs`: the owning model of tinyecs.go, where an `Entity`
  carries its own ordered list of component IDs;
* namespace `Linked`: the linked model (the alternative engine source kept
  with the tests), where a link table maps each component ID to the entity
  value that created it and to the originally recorded component value.

Go specifics captured by the embedding: a Go map is represented as an
association list whose operations preserve key uniqueness (assignment
replaces the value in place when the key is present and appends otherwise;
deletion removes every entry with the key, which on the unique-key states a
Go map can reach coincides with removing the single entry); the uint64
next-ID counter is a natural number reduced modulo 2 ^ 64; a run-time value
of dynamic type is a pair of a type tag and a payload, and a Go type
assertion succeeds exactly when the tag matches; a failed unchecked type
assertion (a panic) is modelled as the result `none`.  Visitors are pure, so
an iteration primitive returns the counter together with the ordered list of
visitor invocations instead of taking a function argument.
-/

set_option autoImplicit false

namespace Tinyecs

/-- The modulus of the uint64 type used for component IDs and counters. -/
def U64 : Nat := 2 ^ 64

/-- A run-time value of dynamic type: a concrete-type tag paired with the
payload of the value.  A Go type assertion to a concrete type succeeds
exactly when the tag matches. -/
structure Val where
  tag : Nat
  data : Int
deriving DecidableEq

/-- Go map read m[k]: the value stored at key k, if any. -/
def mapGet {α : Type} (m : List (Nat × α)) (k : Nat) : Option α :=
  match m with
  | [] => none
  | p :: rest => if p.1 = k then some p.2 else mapGet rest k

/-- Go map assignment m[k] = v: replaces the value at key k in place when the
key is present, and appends a fresh entry otherwise. -/
def mapSet {α : Type} (m : List (Nat × α)) (k : Nat) (v : α) : List (Nat × α) :=
  match m with
  | [] => [(k, v)]
  | p :: rest => if p.1 = k then (k, v) :: rest else p :: mapSet rest k v

/-- Go map deletion: removes the entry with key k (every occurrence, which on
the unique-key states a Go map can reach is the single entry). -/
def mapDelete {α : Type} (m : List (Nat × α)) (k : Nat) : List (Nat × α) :=
  match m with
  | [] => []
  | p :: rest => if p.1 = k then mapDelete rest k else p :: mapDelete rest k

/-- The keys of a Go map in entry order. -/
def keysOf {α : Type} (m : List (Nat × α)) : List Nat :=
  m.map Prod.fst

/-- Entity of the owning model: a collection of component IDs
(tinyecs.go, type Entity). -/
structure Entity where
  components : List Nat
deriving DecidableEq

/-- An entity value as stored in the engine entity list: the consumer struct
embeds Entity, so structural equality (reflect.DeepEqual) compares the
consumer tag together with the embedded component-ID list. -/
structure EVal where
  tag : Nat
  ent : Entity
deriving DecidableEq

/-- The engine of the owning model (tinyecs.go, type Engine): the next-ID
counter, the component map and the registered-entity list.  The mutex only
serialises access and has no sequential meaning, so it is not represented. -/
structure Engine where
  nextComponentID : Nat
  components : List (Nat × Val)
  entities : List EVal
deriving DecidableEq

/-- Embedding of Engine.addComponent: assigns the current counter value as
the ID, stores the component under it, increments the uint64 counter, and
returns the ID together with the updated engine. -/
def Engine.addComponent (e : Engine) (component : Val) : Nat × Engine :=
  let id := e.nextComponentID
  (id,
    { e with
      components := mapSet e.components id component
      nextComponentID := (id + 1) % U64 })

/-- Embedding of Engine.deleteComponent: removes the entry for the ID from
the component map. -/
def Engine.deleteComponent (e : Engine) (id : Nat) : Engine :=
  { e with components := mapDelete e.components id }

/-- Embedding of Engine.GetComponents: the component map held by the engine. -/
def Engine.GetComponents (e : Engine) : List (Nat × Val) :=
  e.components

/-- Embedding of Engine.GetEntities: the entity list held by the engine. -/
def Engine.GetEntities (e : Engine) : List EVal :=
  e.entities

/-- Embedding of Engine.AddEntity: appends the entity to the engine list. -/
def Engine.AddEntity (e : Engine) (entity : EVal) : Engine :=
  { e with entities := e.entities ++ [entity] }

/-- Removal of the first element structurally equal to v, as performed by the
loop of Engine.RemoveEntity with reflect.DeepEqual. -/
def removeFirst (l : List EVal) (v : EVal) : List EVal :=
  match l with
  | [] => []
  | x :: rest => if x = v then rest else x :: removeFirst rest v

/-- Embedding of Engine.RemoveEntity: removes the first registered entity
structurally equal to the argument; returns silently when none matches. -/
def Engine.RemoveEntity (e : Engine) (entity : EVal) : Engine :=
  { e with entities := removeFirst e.entities entity }

/-- Embedding of NewEngine: empty component map, counter at zero, no
entities. -/
def NewEngine : Engine :=
  { nextComponentID := 0, components := [], entities := [] }

/-- Embedding of Each: folds over the component map and, for every entry
whose dynamic type has tag t, increments the uint64 counter and records the
visitor invocation (id, component).  The result is the counter together with
the invocations in iteration order. -/
def Each (t : Nat) (engine : Engine) : Nat × List (Nat × Val) :=
  engine.components.foldl
    (fun acc p => if p.2.tag = t then ((acc.1 + 1) % U64, acc.2 ++ [p]) else acc)
    (0, [])

/-- Embedding of Set: stores the component under the given ID in the engine
component map. -/
def Set (engine : Engine) (id : Nat) (component : Val) : Engine :=
  { engine with components := mapSet engine.components id component }

/-- Embedding of Entity.AddComponents: for each component in argument order,
adds it to the engine and appends the returned ID to the entity list. -/
def Entity.AddComponents (ent : Entity) (engine : Engine) (cs : List Val) :
    Entity × Engine :=
  match cs with
  | [] => (ent, engine)
  | c :: rest =>
    let r := engine.addComponent c
    Entity.AddComponents { components := ent.components ++ [r.1] } r.2 rest

/-- Embedding of Entity.GetComponents: the component IDs associated with the
entity, in insertion order. -/
def Entity.GetComponents (ent : Entity) : List Nat :=
  ent.components

/-- Removal of the first occurrence of an ID from an entity component list,
returning none when the ID does not occur; mirrors the search loop of
Entity.DeleteComponent. -/
def removeId (l : List Nat) (id : Nat) : Option (List Nat) :=
  match l with
  | [] => none
  | x :: rest =>
    if x = id then some rest
    else (removeId rest id).map (fun r => x :: r)

/-- Embedding of Entity.DeleteComponent: when the ID occurs in the entity
list, removes its first occurrence there and deletes the ID from the engine
component map; otherwise leaves both untouched. -/
def Entity.DeleteComponent (ent : Entity) (engine : Engine) (id : Nat) :
    Entity × Engine :=
  match removeId ent.components id with
  | some rest => ({ components := rest }, engine.deleteComponent id)
  | none => (ent, engine)

/-- A component-store operation of the owning model: an add with a component
value or a delete by ID.  Used to state properties of arbitrary interleavings
of add and delete calls on one engine. -/
inductive Op where
  | add (component : Val)
  | del (id : Nat)

/-- Runs a list of operations on an engine and returns the final engine
together with the IDs returned by the add operations, in call order. -/
def runOps (ops : List Op) (e : Engine) : Engine × List Nat :=
  match ops with
  | [] => (e, [])
  | Op.add c :: rest =>
    let r := e.addComponent c
    let s := runOps rest r.2
    (s.1, r.1 :: s.2)
  | Op.del i :: rest => runOps rest (e.deleteComponent i)

/-- The number of add operations in a list of operations. -/
def countAdds (ops : List Op) : Nat :=
  match ops with
  | [] => 0
  | Op.add _ :: rest => countAdds rest + 1
  | Op.del _ :: rest => countAdds rest

/-- Direct scan of a component map for the entries of dynamic type t: the
specification against which the Each results are compared. -/
def matchingEntries (t : Nat) (m : List (Nat × Val)) : List (Nat × Val) :=
  m.filter (fun p => p.2.tag == t)

/-- A concrete engine used to exercise the theorems: three components, of
dynamic types 1, 2 and 1, under IDs 0, 1 and 2. -/
def sampleEngine : Engine :=
  { nextComponentID := 3
    components := [(0, ⟨1, 5⟩), (1, ⟨2, 6⟩), (2, ⟨1, 7⟩)]
    entities := [] }

end Tinyecs

namespace Linked

open Tinyecs (Val U64 mapGet mapSet mapDelete keysOf)

/-- An entity value of the linked model: the consumer struct embedding the
empty Entity, so a concrete-type tag plus payload; a type assertion on it
succeeds exactly when the tag matches. -/
structure EntVal where
  tag : Nat
  data : Int
deriving DecidableEq

/-- Embedding of entityComponentLink: the entity value that created the
component, and the originally recorded component value.  The source stores a
pointer to the local parameter of addComponent; nothing ever writes through
that pointer afterwards, so the dereferenced value is constant and is
embedded as the value itself. -/
structure Link where
  entity : EntVal
  component : Val
deriving DecidableEq

/-- The engine of the linked model: counter, component map, entity list and
the link table from component ID to its creation link. -/
structure Engine where
  nextComponentID : Nat
  components : List (Nat × Val)
  entities : List EntVal
  links : List (Nat × Link)
deriving DecidableEq

/-- Embedding of the linked Engine.addComponent: assigns the counter value as
the ID, stores the component, records the link (entity, recorded component),
and increments the uint64 counter. -/
def Engine.addComponent (e : Engine) (entity : EntVal) (component : Val) :
    Nat × Engine :=
  let id := e.nextComponentID
  (id,
    { e with
      components := mapSet e.components id component
      links := mapSet e.links id { entity := entity, component := component }
      nextComponentID := (id + 1) % U64 })

/-- Embedding of the linked Engine.AddComponents: adds each component of the
argument list in order on behalf of the entity. -/
def Engine.AddComponents (e : Engine) (entity : EntVal) (cs : List Val) :
    Engine :=
  match cs with
  | [] => e
  | c :: rest => Engine.AddComponents (e.addComponent entity c).2 entity rest

/-- Embedding of the linked Engine.deleteComponent: removes the map entry. -/
def Engine.deleteComponent (e : Engine) (id : Nat) : Engine :=
  { e with components := mapDelete e.components id }

/-- Embedding of the linked Engine.DeleteComponent: for every stored entry
equal to the argument value, removes its link and its map entry. -/
def Engine.DeleteComponent (e : Engine) (component : Val) : Engine :=
  (keysOf (e.components.filter (fun p => p.2 == component))).foldl
    (fun acc id =>
      { acc with
        links := mapDelete acc.links id
        components := mapDelete acc.components id })
    e

/-- Embedding of the linked Engine.AddEntity. -/
def Engine.AddEntity (e : Engine) (entity : EntVal) : Engine :=
  { e with entities := e.entities ++ [entity] }

/-- Embedding of the linked NewEngine: empty maps, counter at zero. -/
def NewEngine : Engine :=
  { nextComponentID := 0, components := [], entities := [], links := [] }

/-- Embedding of the linked Set: stores the component under the ID in the
component map.  The link table is not touched, so the recorded component of
an existing link keeps its original value and type. -/
def Set (engine : Engine) (id : Nat) (component : Val) : Engine :=
  { engine with components := mapSet engine.components id component }

/-- The loop of EachEntity over the link table: for a link whose recorded
component has tag ctag and whose entity has tag etag, the live store value
at the link ID is read and cast to ctag without a check; the cast panics
(result none) when the entry is absent or its tag differs.  On success the
counter is incremented and the visitor invocation (entity, live component)
is recorded. -/
def eachEntityLoop (components : List (Nat × Val)) (etag ctag : Nat)
    (links : List (Nat × Link)) (acc : Nat × List (EntVal × Val)) :
    Option (Nat × List (EntVal × Val)) :=
  match links with
  | [] => some acc
  | (idx, link) :: rest =>
    if link.component.tag = ctag then
      if link.entity.tag = etag then
        match mapGet components idx with
        | some c =>
          if c.tag = ctag then
            eachEntityLoop components etag ctag rest
              ((acc.1 + 1) % U64, acc.2 ++ [(link.entity, c)])
          else none
        | none => none
      else eachEntityLoop components etag ctag rest acc
    else eachEntityLoop components etag ctag rest acc

/-- Embedding of EachEntity: iterates the link table with the loop above,
starting from counter zero and no recorded invocations; none means the scan
panicked on the unchecked cast of a live store value. -/
def EachEntity (etag ctag : Nat) (engine : Engine) :
    Option (Nat × List (EntVal × Val)) :=
  eachEntityLoop engine.components etag ctag engine.links (0, [])

/-- Direct scan of the link table for the links whose recorded component has
dynamic type ctag and whose entity has dynamic type etag: the specification
against which the EachEntity results are compared. -/
def matchingLinks (etag ctag : Nat) (ls : List (Nat × Link)) :
    List (Nat × Link) :=
  ls.filter (fun p => p.2.component.tag == ctag && p.2.entity.tag == etag)

/-- The live store value at the ID of a link, defaulting when absent; under
the store-consistency hypothesis of the EachEntity theorem the default case
never arises. -/
def liveAt (components : List (Nat × Val)) (p : Nat × Link) : Val :=
  (mapGet components p.1).getD ⟨0, 0⟩

/-- A concrete linked engine used to exercise the theorems: an entity of
dynamic type 0 owning one component of type 1, and an entity of dynamic type
1 owning components of types 1 and 2. -/
def sampleLinked : Engine :=
  Engine.AddComponents
    (Engine.AddComponents NewEngine ⟨0, 0⟩ [⟨1, 5⟩])
    ⟨1, 0⟩ [⟨1, 6⟩, ⟨2, 7⟩]

/-- The linked engine on which EachEntity panics: component 0 is created
with dynamic type 1 (so its link records a value of type 1), then Set
overwrites the store entry with a value of dynamic type 2 while the link
keeps the original value. -/
def clashEngine : Engine :=
  Set (Engine.AddComponents NewEngine ⟨0, 0⟩ [⟨1, 5⟩]) 0 ⟨2, 9⟩

end Linked

namespace Tinyecs

theorem U64_pos : 0 < U64 := by
  simp [U64]

theorem keysOf_nil {α : Type} : keysOf ([] : List (Nat × α)) = [] := rfl

theorem keysOf_cons {α : Type} (p : Nat × α) (m : List (Nat × α)) :
    keysOf (p :: m) = p.1 :: keysOf m := rfl

theorem mapGet_mapSet_self {α : Type} (m : List (Nat × α)) (k : Nat) (v : α) :
    mapGet (mapSet m k v) k = some v := by
  induction m with
  | nil => simp [mapSet, mapGet]
  | cons p rest ih =>
    obtain ⟨a, b⟩ := p
    by_cases h : a = k
    · simp [mapSet, mapGet, h]
    · simp [mapSet, mapGet, h, ih]

theorem mapGet_mapSet_ne {α : Type} (m : List (Nat × α)) (k j : Nat) (v : α)
    (h : j ≠ k) : mapGet (mapSet m k v) j = mapGet m j := by
  induction m with
  | nil => simp [mapSet, mapGet, Ne.symm h]
  | cons p rest ih =>
    obtain ⟨a, b⟩ := p
    by_cases hp : a = k
    · subst hp
      simp [mapSet, mapGet, h, Ne.symm h]
    · by_cases hj : a = j
      · simp [mapSet, mapGet, hp, hj, h]
      · simp [mapSet, mapGet, hp, hj, ih]

theorem mapSet_eq_self {α : Type} (m : List (Nat × α)) (k : Nat) (v : α)
    (h : mapGet m k = some v) : mapSet m k v = m := by
  induction m with
  | nil => simp [mapGet] at h
  | cons p rest ih =>
    obtain ⟨a, b⟩ := p
    by_cases hp : a = k
    · simp [mapGet, hp] at h
      simp [mapSet, hp, h]
    · simp [mapGet, hp] at h
      simp [mapSet, hp, ih h]

theorem key_mem_keysOf {α : Type} {m : List (Nat × α)} {p : Nat × α}
    (h : p ∈ m) : p.1 ∈ keysOf m :=
  List.mem_map_of_mem Prod.fst h

theorem mapGet_eq_none_iff {α : Type} (m : List (Nat × α)) (k : Nat) :
    mapGet m k = none ↔ k ∉ keysOf m := by
  induction m with
  | nil => simp [mapGet, keysOf_nil]
  | cons p rest ih =>
    obtain ⟨a, b⟩ := p
    by_cases hp : a = k
    · simp [mapGet, keysOf_cons, hp]
    · simp [mapGet, keysOf_cons, hp, ih, Ne.symm hp]

theorem keysOf_mapSet_of_mem {α : Type} (m : List (Nat × α)) (k : Nat) (v : α)
    (h : k ∈ keysOf m) : keysOf (mapSet m k v) = keysOf m := by
  induction m with
  | nil => simp [keysOf_nil] at h
  | cons p rest ih =>
    obtain ⟨a, b⟩ := p
    by_cases hp : a = k
    · simp [mapSet, keysOf_cons, hp]
    · have hr : k ∈ keysOf rest := by
        rcases List.mem_cons.1 (by simpa [keysOf_cons] using h) with hh | hh
        · exact absurd hh.symm hp
        · exact hh
      simp [mapSet, keysOf_cons, hp, ih hr]

theorem keysOf_mapSet_of_not_mem {α : Type} (m : List (Nat × α)) (k : Nat)
    (v : α) (h : k ∉ keysOf m) : keysOf (mapSet m k v) = keysOf m ++ [k] := by
  induction m with
  | nil => simp [mapSet, keysOf_nil, keysOf_cons]
  | cons p rest ih =>
    obtain ⟨a, b⟩ := p
    rw [keysOf_cons] at h
    have hp : a ≠ k := fun hh => h (by simp [hh])
    have hr : k ∉ keysOf rest := fun hh => h (List.mem_cons_of_mem _ hh)
    simp [mapSet, keysOf_cons, hp, ih hr]

theorem length_keysOf {α : Type} (m : List (Nat × α)) :
    (keysOf m).length = m.length := by
  simp [keysOf]

theorem mapDelete_of_not_mem {α : Type} (m : List (Nat × α)) (k : Nat)
    (h : k ∉ keysOf m) : mapDelete m k = m := by
  induction m with
  | nil => simp [mapDelete]
  | cons p rest ih =>
    obtain ⟨a, b⟩ := p
    rw [keysOf_cons] at h
    have hp : a ≠ k := fun hh => h (by simp [hh])
    have hr : k ∉ keysOf rest := fun hh => h (List.mem_cons_of_mem _ hh)
    simp [mapDelete, hp, ih hr]

theorem not_mem_keysOf_mapDelete {α : Type} (m : List (Nat × α)) (k : Nat) :
    k ∉ keysOf (mapDelete m k) := by
  induction m with
  | nil => simp [mapDelete, keysOf_nil]
  | cons p rest ih =>
    obtain ⟨a, b⟩ := p
    by_cases hp : a = k
    · simpa [mapDelete, hp] using ih
    · simp [mapDelete, keysOf_cons, hp, Ne.symm hp, ih]

theorem length_mapDelete {α : Type} (m : List (Nat × α)) (k : Nat) :
    (mapDelete m k).length = m.length - (keysOf m).count k := by
  induction m with
  | nil => simp [mapDelete, keysOf_nil]
  | cons p rest ih =>
    obtain ⟨a, b⟩ := p
    have hle : (keysOf rest).count k ≤ rest.length := by
      simpa [length_keysOf] using List.count_le_length k (keysOf rest)
    by_cases hp : a = k
    · simp [mapDelete, keysOf_cons, hp, ih, List.count_cons]
    · simp [mapDelete, keysOf_cons, hp, ih, List.count_cons, Ne.symm hp]
      omega

theorem count_mapSet_self (m : List (Nat × Val)) (k : Nat) (v w : Val)
    (hget : mapGet m k = some v) (hnd : (keysOf m).Nodup) :
    (mapSet m k w).count (k, w) = 1 := by
  induction m with
  | nil => simp [mapGet] at hget
  | cons p rest ih =>
    obtain ⟨a, b⟩ := p
    rw [keysOf_cons] at hnd
    have hmem := (List.nodup_cons.1 hnd).1
    have hnd2 := (List.nodup_cons.1 hnd).2
    by_cases hp : a = k
    · subst hp
      have hnot : (a, w) ∉ rest := fun hm =>
        hmem (key_mem_keysOf (p := (a, w)) hm)
      simp [mapSet, List.count_cons, List.count_eq_zero.2 hnot]
    · have hget2 : mapGet rest k = some v := by simpa [mapGet, hp] using hget
      have hne : ((a, b) : Nat × Val) ≠ (k, w) := by simp [hp]
      simp [mapSet, hp, List.count_cons, ih hget2 hnd2, hne]

theorem each_foldl (t : Nat) (l : List (Nat × Val)) :
    ∀ (c : Nat) (vs : List (Nat × Val)),
      l.foldl
        (fun acc p => if p.2.tag = t then ((acc.1 + 1) % U64, acc.2 ++ [p]) else acc)
        (c % U64, vs) =
      ((c + (matchingEntries t l).length) % U64, vs ++ matchingEntries t l) := by
  induction l with
  | nil => intro c vs; simp [matchingEntries]
  | cons p rest ih =>
    intro c vs
    by_cases h : p.2.tag = t
    · have h1 : ((c % U64) + 1) % U64 = (c + 1) % U64 := Nat.mod_add_mod c U64 1
      have hm : matchingEntries t (p :: rest) = p :: matchingEntries t rest := by
        simp [matchingEntries, List.filter_cons, h]
      simp only [List.foldl_cons, if_pos h, h1, ih (c + 1) (vs ++ [p]), hm]
      rw [Prod.ext_iff]
      refine ⟨?_, by simp⟩
      simp only [List.length_cons]
      congr 1
      omega
    · simp only [List.foldl_cons, if_neg h, ih c vs]
      simp [matchingEntries, List.filter_cons, h]

theorem each_spec (t : Nat) (e : Engine) :
    Each t e =
      ((matchingEntries t e.components).length % U64,
        matchingEntries t e.components) := by
  have h := each_foldl t e.components 0 []
  simpa [Each, Nat.zero_mod] using h

theorem removeFirst_of_not_mem (l : List EVal) (v : EVal) (h : v ∉ l) :
    removeFirst l v = l := by
  induction l with
  | nil => simp [removeFirst]
  | cons x rest ih =>
    rw [List.mem_cons] at h
    push_neg at h
    simp [removeFirst, Ne.symm h.1, ih h.2]

theorem removeFirst_first_occ (l₁ l₂ : List EVal) (v : EVal) (h : v ∉ l₁) :
    removeFirst (l₁ ++ v :: l₂) v = l₁ ++ l₂ := by
  induction l₁ with
  | nil => simp [removeFirst]
  | cons x rest ih =>
    rw [List.mem_cons] at h
    push_neg at h
    simp [removeFirst, Ne.symm h.1, ih h.2]

theorem removeId_eq_none (l : List Nat) (id : Nat) (h : id ∉ l) :
    removeId l id = none := by
  induction l with
  | nil => simp [removeId]
  | cons x rest ih =>
    rw [List.mem_cons] at h
    push_neg at h
    simp [removeId, Ne.symm h.1, ih h.2]

theorem removeId_decomp (l : List Nat) (id : Nat) (h : id ∈ l) :
    ∃ l₁ l₂, l = l₁ ++ id :: l₂ ∧ id ∉ l₁ ∧ removeId l id = some (l₁ ++ l₂) := by
  induction l with
  | nil => simp at h
  | cons x rest ih =>
    by_cases hx : x = id
    · exact ⟨[], rest, by simp [hx], by simp, by simp [removeId, hx]⟩
    · have hr : id ∈ rest := by
        rcases List.mem_cons.1 h with hh | hh
        · exact absurd hh.symm hx
        · exact hh
      obtain ⟨l₁, l₂, hdec, hnot, hrem⟩ := ih hr
      refine ⟨x :: l₁, l₂, by simp [hdec], ?_, ?_⟩
      · rw [List.mem_cons]
        push_neg
        exact ⟨Ne.symm hx, hnot⟩
      · simp [removeId, hx, hrem]

theorem runOps_spec (ops : List Op) :
    ∀ e : Engine, e.nextComponentID < U64 →
      (runOps ops e).2 =
        (List.range (countAdds ops)).map
          (fun i => (e.nextComponentID + i) % U64) ∧
      (runOps ops e).1.nextComponentID =
        (e.nextComponentID + countAdds ops) % U64 := by
  induction ops with
  | nil =>
    intro e he
    simp [runOps, countAdds, Nat.mod_eq_of_lt he]
  | cons op rest ih =>
    intro e op_rest_done
    cases op with
    | add c =>
      have he2 : (e.nextComponentID + 1) % U64 < U64 :=
        Nat.mod_lt _ U64_pos
      have h2 := ih (e.addComponent c).2 (by simpa [Engine.addComponent] using he2)
      have hnext : (e.addComponent c).2.nextComponentID =
          (e.nextComponentID + 1) % U64 := rfl
      constructor
      · show (e.addComponent c).1 :: (runOps rest (e.addComponent c).2).2 = _
        rw [h2.1, hnext]
        rw [countAdds, List.range_succ_eq_map]
        rw [List.map_cons]
        refine congrArg₂ List.cons ?_ ?_
        · show e.nextComponentID = (e.nextComponentID + 0) % U64
          rw [Nat.add_zero, Nat.mod_eq_of_lt op_rest_done]
        · rw [List.map_map]
          refine List.map_congr_left ?_
          intro i _
          show ((e.nextComponentID + 1) % U64 + i) % U64 = _
          rw [Nat.mod_add_mod]
          simp only [Function.comp]
          congr 1
          omega
      · show (runOps rest (e.addComponent c).2).1.nextComponentID = _
        rw [h2.2, hnext, Nat.mod_add_mod, countAdds]
        congr 1
        omega
    | del i =>
      have hdel : (e.deleteComponent i).nextComponentID = e.nextComponentID := rfl
      have h2 := ih (e.deleteComponent i) (by rw [hdel]; exact op_rest_done)
      constructor
      · show (runOps rest (e.deleteComponent i)).2 = _
        rw [h2.1, hdel, countAdds]
      · show (runOps rest (e.deleteComponent i)).1.nextComponentID = _
        rw [h2.2, hdel, countAdds]

theorem countAdds_replicate (n : Nat) (c : Val) :
    countAdds (List.replicate n (Op.add c)) = n := by
  induction n with
  | zero => simp [countAdds]
  | succ k ih => simp [List.replicate_succ, countAdds, ih]

theorem range_map_shift (a n : Nat) :
    (List.range (n + 1)).map (fun i => a + i) =
      a :: (List.range n).map (fun i => a + 1 + i) := by
  rw [List.range_succ_eq_map, List.map_cons, List.map_map]
  refine congrArg₂ List.cons (by simp) ?_
  refine List.map_congr_left ?_
  intro i _
  simp only [Function.comp]
  omega

theorem addComponents_spec (cs : List Val) :
    ∀ (ent : Entity) (e : Engine),
      (∀ k ∈ keysOf e.components, k < e.nextComponentID) →
      e.nextComponentID + cs.length < U64 →
      (Entity.AddComponents ent e cs).1.components =
        ent.components ++
          (List.range cs.length).map (fun i => e.nextComponentID + i) ∧
      keysOf (Entity.AddComponents ent e cs).2.components =
        keysOf e.components ++
          (List.range cs.length).map (fun i => e.nextComponentID + i) ∧
      (Entity.AddComponents ent e cs).2.nextComponentID =
        e.nextComponentID + cs.length ∧
      (Entity.AddComponents ent e cs).2.entities = e.entities := by
  induction cs with
  | nil =>
    intro ent e hk hcap
    simp [Entity.AddComponents]
  | cons c rest ih =>
    intro ent e hk hcap
    rw [List.length_cons] at hcap
    have hid_not : e.nextComponentID ∉ keysOf e.components := fun hm =>
      absurd (hk _ hm) (lt_irrefl _)
    have hnew_next : (e.addComponent c).2.nextComponentID =
        e.nextComponentID + 1 := by
      show (e.nextComponentID + 1) % U64 = _
      exact Nat.mod_eq_of_lt (by omega)
    have hnew_keys : keysOf (e.addComponent c).2.components =
        keysOf e.components ++ [e.nextComponentID] :=
      keysOf_mapSet_of_not_mem _ _ _ hid_not
    have hk2 : ∀ k ∈ keysOf (e.addComponent c).2.components,
        k < (e.addComponent c).2.nextComponentID := by
      intro k hkm
      rw [hnew_keys] at hkm
      rw [hnew_next]
      rcases List.mem_append.1 hkm with hh | hh
      · have := hk _ hh
        omega
      · simp at hh
        omega
    have hcap2 : (e.addComponent c).2.nextComponentID + rest.length < U64 := by
      rw [hnew_next]
      omega
    have h2 := ih { components := ent.components ++ [e.nextComponentID] }
      (e.addComponent c).2 hk2 hcap2
    have hstep : Entity.AddComponents ent e (c :: rest) =
        Entity.AddComponents { components := ent.components ++ [e.nextComponentID] }
          (e.addComponent c).2 rest := rfl
    rw [hstep]
    refine ⟨?_, ?_, ?_, ?_⟩
    · rw [h2.1, hnew_next, List.length_cons, range_map_shift]
      simp
    · rw [h2.2.1, hnew_next, hnew_keys, List.length_cons, range_map_shift]
      simp
    · rw [h2.2.2.1, hnew_next, List.length_cons]
      omega
    · rw [h2.2.2.2]
      rfl

/-- Claim C1, counterexample: on the empty engine the ID 5 is absent, yet
Set with ID 5 changes the component mapping and creates an entry for 5, so
Set on an absent ID is not a no-op. -/
theorem C1_counterexample :
    mapGet NewEngine.components 5 = none ∧
    (Set NewEngine 5 ⟨1, 7⟩).components ≠ NewEngine.components ∧
    mapGet (Set NewEngine 5 ⟨1, 7⟩).components 5 = some ⟨1, 7⟩ := by
  decide

/-- Claim C1 as amended: Set stores the component under the given ID
unconditionally; afterwards the ID maps to the component, every other ID is
unchanged, and when the ID was absent exactly one new entry is appended. -/
theorem C1_set_always_stores (e : Engine) (id : Nat) (c : Val) :
    mapGet (Set e id c).components id = some c ∧
    (∀ j, j ≠ id → mapGet (Set e id c).components j = mapGet e.components j) ∧
    keysOf (Set e id c).components =
      (if id ∈ keysOf e.components then keysOf e.components
       else keysOf e.components ++ [id]) := by
  refine ⟨mapGet_mapSet_self _ _ _,
    fun j hj => mapGet_mapSet_ne _ _ _ _ hj, ?_⟩
  by_cases h : id ∈ keysOf e.components
  · simp [Set, h, keysOf_mapSet_of_mem _ _ _ h]
  · simp [Set, h, keysOf_mapSet_of_not_mem _ _ _ h]

/-- Claim C1 witness: the amended statement evaluated on a concrete engine
and a fresh ID. -/
theorem C1_witness :
    mapGet (Set sampleEngine 7 ⟨3, 1⟩).components 7 = some ⟨3, 1⟩ ∧
    mapGet (Set sampleEngine 7 ⟨3, 1⟩).components 0 =
      mapGet sampleEngine.components 0 :=
  ⟨(C1_set_always_stores sampleEngine 7 ⟨3, 1⟩).1,
   (C1_set_always_stores sampleEngine 7 ⟨3, 1⟩).2.1 0 (by decide)⟩

/-- Claim C2, counterexample: the ID counter is a uint64, so in the sequence
of 2 ^ 64 + 1 add calls on a fresh engine the first and the last adds both
return ID 0; the returned IDs are not pairwise distinct and the ID 0 is
reused even without any deletion. -/
theorem C2_counterexample :
    (runOps (List.replicate (U64 + 1) (Op.add ⟨0, 0⟩)) NewEngine).2.get? 0 =
      some 0 ∧
    (runOps (List.replicate (U64 + 1) (Op.add ⟨0, 0⟩)) NewEngine).2.get? U64 =
      some 0 ∧
    ¬ (runOps (List.replicate (U64 + 1) (Op.add ⟨0, 0⟩)) NewEngine).2.Nodup := by
  have hnew : NewEngine.nextComponentID < U64 := U64_pos
  have h := (runOps_spec (List.replicate (U64 + 1) (Op.add ⟨0, 0⟩))
    NewEngine hnew).1
  rw [countAdds_replicate] at h
  have hids : (runOps (List.replicate (U64 + 1) (Op.add ⟨0, 0⟩)) NewEngine).2 =
      (List.range (U64 + 1)).map (fun i => i % U64) := by
    rw [h]
    refine List.map_congr_left ?_
    intro i _
    show (0 + i) % U64 = i % U64
    rw [Nat.zero_add]
  refine ⟨?_, ?_, ?_⟩
  · rw [hids, List.get?_map, List.get?_range (by omega)]
    simp
  · rw [hids, List.get?_map, List.get?_range (by omega)]
    simp [Nat.mod_self]
  · intro hnd
    rw [hids] at hnd
    have h0 : (0 : Nat) ∈ List.range (U64 + 1) := List.mem_range.2 (by omega)
    have hU : U64 ∈ List.range (U64 + 1) := List.mem_range.2 (by omega)
    have heq := (List.nodup_map_iff_inj_on (List.nodup_range _)).1 hnd
      0 h0 U64 hU (by simp [Nat.mod_self])
    exact absurd heq.symm (Nat.ne_of_gt U64_pos)

/-- Claim C2 as amended: within any interleaving of add and delete calls on
a fresh engine that performs at most 2 ^ 64 adds, the returned IDs are the
initial segment of the naturals, hence pairwise distinct and strictly
increasing, and no deletion ever changes the next-ID counter; the counter is
incremented modulo 2 ^ 64, so IDs repeat only after 2 ^ 64 adds. -/
theorem C2_ids_strictly_increasing (ops : List Op) (h : countAdds ops ≤ U64) :
    (runOps ops NewEngine).2 = List.range (countAdds ops) ∧
    (runOps ops NewEngine).2.Pairwise (· < ·) ∧
    (runOps ops NewEngine).2.Nodup ∧
    (∀ (e : Engine) (id : Nat),
      (e.deleteComponent id).nextComponentID = e.nextComponentID) := by
  have hnew : NewEngine.nextComponentID < U64 := U64_pos
  have hids := (runOps_spec ops NewEngine hnew).1
  have hmain : (runOps ops NewEngine).2 = List.range (countAdds ops) := by
    rw [hids]
    have hcg : ∀ i ∈ List.range (countAdds ops),
        (NewEngine.nextComponentID + i) % U64 = i := by
      intro i hi
      have hi2 := List.mem_range.1 hi
      show (0 + i) % U64 = i
      rw [Nat.zero_add]
      exact Nat.mod_eq_of_lt (by omega)
    simpa using List.map_congr_left hcg
  refine ⟨hmain, ?_, ?_, fun e id => rfl⟩
  · rw [hmain]
    exact List.pairwise_lt_range _
  · rw [hmain]
    exact List.nodup_range _

/-- Claim C2 witness: a concrete interleaving of three adds and one delete
returns the IDs 0, 1, 2 in strictly increasing order. -/
theorem C2_witness :
    (runOps [Op.add ⟨0, 1⟩, Op.add ⟨1, 2⟩, Op.del 0, Op.add ⟨0, 3⟩]
      NewEngine).2 = [0, 1, 2] ∧
    (runOps [Op.add ⟨0, 1⟩, Op.add ⟨1, 2⟩, Op.del 0, Op.add ⟨0, 3⟩]
      NewEngine).2.Pairwise (· < ·) := by
  have h := C2_ids_strictly_increasing
    [Op.add ⟨0, 1⟩, Op.add ⟨1, 2⟩, Op.del 0, Op.add ⟨0, 3⟩] (by decide)
  exact ⟨by rw [h.1]; decide, h.2.1⟩

/-- Claim C3: Each visits exactly the stored entries whose dynamic type is
T, each exactly once and in store order, and returns the number of such
entries as its counter. -/
theorem C3_each_type_filter (t : Nat) (e : Engine)
    (h : (matchingEntries t e.components).length < U64) :
    (Each t e).2 = matchingEntries t e.components ∧
    (Each t e).1 = (matchingEntries t e.components).length ∧
    ∀ p, p ∈ (Each t e).2 ↔ p ∈ e.components ∧ p.2.tag = t := by
  have hs := each_spec t e
  refine ⟨by rw [hs], by rw [hs]; exact Nat.mod_eq_of_lt h, ?_⟩
  intro p
  rw [hs]
  simp [matchingEntries, List.mem_filter]

/-- Claim C3 witness: on a concrete engine with two components of type 1 and
one of type 2, Each for type 1 visits exactly the two entries of type 1 and
returns 2. -/
theorem C3_witness :
    (Each 1 sampleEngine).1 = 2 ∧
    (Each 1 sampleEngine).2 = [(0, ⟨1, 5⟩), (2, ⟨1, 7⟩)] := by
  have h := C3_each_type_filter 1 sampleEngine (by decide)
  exact ⟨by rw [h.2.1]; decide, by rw [h.1]; decide⟩

/-- Claim C4: the visitor works on a value, so a mutation persists exactly
through Set: storing back the unchanged value leaves the engine identical
(identity round-trip), and after Set with an updated value of the same type
a subsequent Each scan of that type observes the updated entry exactly
once. -/
theorem C4_mutation_round_trip (e : Engine) (id : Nat) (v w : Val)
    (hget : mapGet e.components id = some v)
    (hnd : (keysOf e.components).Nodup)
    (htag : w.tag = v.tag) :
    Set e id v = e ∧
    mapGet (Set e id w).components id = some w ∧
    (Each v.tag (Set e id w)).2.count (id, w) = 1 := by
  refine ⟨?_, mapGet_mapSet_self _ _ _, ?_⟩
  · show { e with components := mapSet e.components id v } = e
    rw [mapSet_eq_self _ _ _ hget]
  · have hs := each_spec v.tag (Set e id w)
    rw [hs]
    show (matchingEntries v.tag (mapSet e.components id w)).count (id, w) = 1
    rw [matchingEntries, List.count_filter (by simp [htag])]
    exact count_mapSet_self e.components id v w hget hnd

/-- Claim C4 witness: the round trip evaluated on a concrete engine, with
the identity update and with an updated payload. -/
theorem C4_witness :
    Set sampleEngine 0 ⟨1, 5⟩ = sampleEngine ∧
    mapGet (Set sampleEngine 0 ⟨1, 9⟩).components 0 = some ⟨1, 9⟩ ∧
    (Each 1 (Set sampleEngine 0 ⟨1, 9⟩)).2.count (0, ⟨1, 9⟩) = 1 := by
  have h := C4_mutation_round_trip sampleEngine 0 ⟨1, 5⟩ ⟨1, 9⟩
    (by decide) (by decide) (by decide)
  exact ⟨h.1, h.2.1, h.2.2⟩

/-- Claim C5: deleting an owned component removes the first occurrence of
the ID from the entity list and the entry from the store, after which no
Each scan reports the ID and the entity no longer lists it; when the ID is
not owned by the entity, both the entity and the engine are untouched. -/
theorem C5_entity_delete_component (ent : Entity) (e : Engine) (id : Nat) :
    (id ∉ ent.components → Entity.DeleteComponent ent e id = (ent, e)) ∧
    (id ∈ ent.components →
      (Entity.DeleteComponent ent e id).2 = e.deleteComponent id ∧
      (∃ l₁ l₂, ent.components = l₁ ++ id :: l₂ ∧ id ∉ l₁ ∧
        (Entity.DeleteComponent ent e id).1.components = l₁ ++ l₂) ∧
      id ∉ keysOf (Entity.DeleteComponent ent e id).2.components ∧
      (∀ t p, p ∈ (Each t (Entity.DeleteComponent ent e id).2).2 → p.1 ≠ id) ∧
      (ent.components.Nodup →
        id ∉ (Entity.DeleteComponent ent e id).1.GetComponents)) := by
  constructor
  · intro h
    simp [Entity.DeleteComponent, removeId_eq_none _ _ h]
  · intro h
    obtain ⟨l₁, l₂, hdec, hnot, hrem⟩ := removeId_decomp ent.components id h
    have hd : Entity.DeleteComponent ent e id =
        ({ components := l₁ ++ l₂ }, e.deleteComponent id) := by
      simp [Entity.DeleteComponent, hrem]
    refine ⟨by rw [hd], ⟨l₁, l₂, hdec, hnot, by rw [hd]⟩, ?_, ?_, ?_⟩
    · rw [hd]
      exact not_mem_keysOf_mapDelete _ _
    · intro t p hp
      rw [hd, each_spec] at hp
      have hpl : p ∈ mapDelete e.components id := (List.mem_filter.1 hp).1
      intro hpid
      have hkm : p.1 ∈ keysOf (mapDelete e.components id) :=
        key_mem_keysOf (m := mapDelete e.components id) hpl
      rw [hpid] at hkm
      exact not_mem_keysOf_mapDelete e.components id hkm
    · intro hnd
      rw [hd]
      show id ∉ l₁ ++ l₂
      rw [hdec, List.nodup_append] at hnd
      have h2 := List.nodup_cons.1 hnd.2.1
      intro hm
      rcases List.mem_append.1 hm with hh | hh
      · exact hnd.2.2 hh (List.mem_cons_self _ _)
      · exact h2.1 hh

/-- Claim C5 witness: both branches evaluated on concrete entities over a
concrete engine. -/
theorem C5_witness :
    Entity.DeleteComponent ⟨[0, 2]⟩ sampleEngine 1 = (⟨[0, 2]⟩, sampleEngine) ∧
    1 ∉ keysOf (Entity.DeleteComponent ⟨[0, 1, 2]⟩ sampleEngine 1).2.components ∧
    1 ∉ (Entity.DeleteComponent ⟨[0, 1, 2]⟩ sampleEngine 1).1.GetComponents :=
  ⟨(C5_entity_delete_component ⟨[0, 2]⟩ sampleEngine 1).1 (by decide),
   ((C5_entity_delete_component ⟨[0, 1, 2]⟩ sampleEngine 1).2 (by decide)).2.2.1,
   ((C5_entity_delete_component ⟨[0, 1, 2]⟩ sampleEngine 1).2
     (by decide)).2.2.2.2 (by decide)⟩

/-- Claim C6: RemoveEntity removes exactly the first registered entity value
structurally equal to its argument, decreasing the number of equal
occurrences by one and leaving components untouched, and does nothing when
no registered entity is equal. -/
theorem C6_remove_entity_first_match (e : Engine) (v : EVal) :
    (v ∉ e.entities → e.RemoveEntity v = e) ∧
    (∀ l₁ l₂, e.entities = l₁ ++ v :: l₂ → v ∉ l₁ →
      (e.RemoveEntity v).entities = l₁ ++ l₂ ∧
      (e.RemoveEntity v).entities.count v = e.entities.count v - 1 ∧
      (e.RemoveEntity v).components = e.components) := by
  constructor
  · intro h
    show { e with entities := removeFirst e.entities v } = e
    rw [removeFirst_of_not_mem _ _ h]
  · intro l₁ l₂ hdec hnot
    have hre : (e.RemoveEntity v).entities = l₁ ++ l₂ := by
      show removeFirst e.entities v = _
      rw [hdec]
      exact removeFirst_first_occ _ _ _ hnot
    refine ⟨hre, ?_, rfl⟩
    rw [hre, hdec]
    simp [List.count_append, List.count_cons,
      List.count_eq_zero.2 hnot]

/-- Claim C6 witness: registering two structurally equal entity values and
removing once leaves exactly one of them registered. -/
theorem C6_witness :
    (((NewEngine.AddEntity ⟨4, ⟨[]⟩⟩).AddEntity ⟨4, ⟨[]⟩⟩).RemoveEntity
      ⟨4, ⟨[]⟩⟩).entities = [⟨4, ⟨[]⟩⟩] := by
  have h := (C6_remove_entity_first_match
    ((NewEngine.AddEntity ⟨4, ⟨[]⟩⟩).AddEntity ⟨4, ⟨[]⟩⟩) ⟨4, ⟨[]⟩⟩).2
    [] [⟨4, ⟨[]⟩⟩] (by decide) (by decide)
  simpa using h.1

/-- Claim C7: every operation aimed at a missing target is a silent no-op:
deleting an absent component ID, removing an unregistered entity and
deleting a component ID not owned by the entity all leave the engine and the
entity exactly as they were. -/
theorem C7_missing_target_noops (e : Engine) (ent : Entity) (id : Nat)
    (v : EVal) :
    (id ∉ keysOf e.components → e.deleteComponent id = e) ∧
    (v ∉ e.entities → e.RemoveEntity v = e) ∧
    (id ∉ ent.components → Entity.DeleteComponent ent e id = (ent, e)) := by
  refine ⟨?_, ?_, ?_⟩
  · intro h
    show { e with components := mapDelete e.components id } = e
    rw [mapDelete_of_not_mem _ _ h]
  · intro h
    show { e with entities := removeFirst e.entities v } = e
    rw [removeFirst_of_not_mem _ _ h]
  · intro h
    simp [Entity.DeleteComponent, removeId_eq_none _ _ h]

/-- Claim C7 witness: the three no-ops evaluated on a concrete engine with a
missing ID, an unregistered entity value and an unowned ID. -/
theorem C7_witness :
    sampleEngine.deleteComponent 9 = sampleEngine ∧
    sampleEngine.RemoveEntity ⟨0, ⟨[]⟩⟩ = sampleEngine ∧
    Entity.DeleteComponent ⟨[0, 2]⟩ sampleEngine 9 = (⟨[0, 2]⟩, sampleEngine) := by
  have h := C7_missing_target_noops sampleEngine ⟨[0, 2]⟩ 9 ⟨0, ⟨[]⟩⟩
  exact ⟨h.1 (by decide), h.2.1 (by decide), h.2.2 (by decide)⟩

/-- Claim C8, counterexample: Set can create an entry under an ID the
counter has not assigned yet; on such an engine AddComponents with one
component overwrites that entry, so the component map does not grow by the
number of added components. -/
theorem C8_counterexample :
    (Set NewEngine 0 ⟨0, 0⟩).components.length = 1 ∧
    (Entity.AddComponents ⟨[]⟩ (Set NewEngine 0 ⟨0, 0⟩)
      [⟨1, 1⟩]).2.components.length = 1 := by
  decide

/-- Claim C8 as amended: on an engine whose stored IDs are all below the
next-ID counter (as in every state built without Set on fresh IDs), adding N
components appends the N freshly assigned consecutive IDs to the entity
list in argument order, grows the component map by exactly N entries, and
deleting one of the fresh IDs afterwards shrinks the map to N - 1 of them. -/
theorem C8_add_components_count (ent : Entity) (e : Engine) (cs : List Val)
    (hk : ∀ k ∈ keysOf e.components, k < e.nextComponentID)
    (hcap : e.nextComponentID + cs.length < U64) :
    (Entity.AddComponents ent e cs).1.GetComponents =
      ent.components ++
        (List.range cs.length).map (fun i => e.nextComponentID + i) ∧
    (Entity.AddComponents ent e cs).2.components.length =
      e.components.length + cs.length ∧
    (∀ i, i < cs.length →
      ((Entity.AddComponents ent e cs).2.deleteComponent
        (e.nextComponentID + i)).components.length =
          e.components.length + cs.length - 1) := by
  have h := addComponents_spec cs ent e hk hcap
  have hlen : (Entity.AddComponents ent e cs).2.components.length =
      e.components.length + cs.length := by
    have h2 := congrArg List.length h.2.1
    simpa [length_keysOf] using h2
  refine ⟨h.1, hlen, ?_⟩
  intro i hi
  have hcount : (keysOf (Entity.AddComponents ent e cs).2.components).count
      (e.nextComponentID + i) = 1 := by
    rw [h.2.1, List.count_append]
    have h0 : (keysOf e.components).count (e.nextComponentID + i) = 0 :=
      List.count_eq_zero.2 (fun hm => by have := hk _ hm; omega)
    have h1 : ((List.range cs.length).map
        (fun j => e.nextComponentID + j)).count (e.nextComponentID + i) = 1 := by
      apply List.count_eq_one_of_mem
      · exact (List.nodup_range _).map (fun a b hab => by omega)
      · exact List.mem_map.2 ⟨i, List.mem_range.2 hi, rfl⟩
    rw [h0, h1]
  show (mapDelete (Entity.AddComponents ent e cs).2.components
    (e.nextComponentID + i)).length = _
  rw [length_mapDelete, hcount, hlen]

/-- Claim C8 witness: three components added to a fresh engine produce the
owned IDs 0, 1, 2 in call order, a map of three entries, and two entries
after one deletion. -/
theorem C8_witness :
    (Entity.AddComponents ⟨[]⟩ NewEngine
      [⟨0, 1⟩, ⟨1, 2⟩, ⟨0, 3⟩]).1.GetComponents = [0, 1, 2] ∧
    (Entity.AddComponents ⟨[]⟩ NewEngine
      [⟨0, 1⟩, ⟨1, 2⟩, ⟨0, 3⟩]).2.components.length = 3 ∧
    ((Entity.AddComponents ⟨[]⟩ NewEngine
      [⟨0, 1⟩, ⟨1, 2⟩, ⟨0, 3⟩]).2.deleteComponent 1).components.length = 2 := by
  have h := C8_add_components_count ⟨[]⟩ NewEngine [⟨0, 1⟩, ⟨1, 2⟩, ⟨0, 3⟩]
    (by decide) (by decide)
  refine ⟨by rw [h.1]; decide, by rw [h.2.1]; decide, ?_⟩
  have h3 := h.2.2 1 (by decide)
  simpa using h3

end Tinyecs

namespace Linked

open Tinyecs (Val U64 U64_pos mapGet mapSet mapDelete keysOf)

theorem eachEntityLoop_spec (comps : List (Nat × Val)) (etag ctag : Nat)
    (ls : List (Nat × Link))
    (H : ∀ p ∈ ls, p.2.component.tag = ctag → p.2.entity.tag = etag →
      (mapGet comps p.1).map Val.tag = some ctag) :
    ∀ (c : Nat) (vs : List (EntVal × Val)),
      eachEntityLoop comps etag ctag ls (c % U64, vs) =
        some ((c + (matchingLinks etag ctag ls).length) % U64,
          vs ++ (matchingLinks etag ctag ls).map
            (fun p => (p.2.entity, liveAt comps p))) := by
  induction ls with
  | nil =>
    intro c vs
    simp [eachEntityLoop, matchingLinks]
  | cons q rest ih =>
    obtain ⟨idx, link⟩ := q
    have Hrest : ∀ p ∈ rest, p.2.component.tag = ctag →
        p.2.entity.tag = etag →
        (mapGet comps p.1).map Val.tag = some ctag :=
      fun p hp => H p (List.mem_cons_of_mem _ hp)
    intro c vs
    by_cases hc : link.component.tag = ctag
    · by_cases he : link.entity.tag = etag
      · have hlive := H (idx, link) (List.mem_cons_self _ _) hc he
        cases hmg : mapGet comps idx with
        | none =>
          rw [hmg] at hlive
          simp at hlive
        | some v =>
          rw [hmg] at hlive
          have hvtag : v.tag = ctag := by
            simpa using hlive
          have h1 : ((c % U64) + 1) % U64 = (c + 1) % U64 :=
            Nat.mod_add_mod c U64 1
          have hm : matchingLinks etag ctag ((idx, link) :: rest) =
              (idx, link) :: matchingLinks etag ctag rest := by
            simp [matchingLinks, List.filter_cons, hc, he]
          have hla : liveAt comps (idx, link) = v := by
            simp [liveAt, hmg]
          simp only [eachEntityLoop, if_pos hc, if_pos he, hmg]
          rw [if_pos hvtag, h1, ih Hrest (c + 1) (vs ++ [(link.entity, v)]), hm]
          simp only [List.map_cons, hla, List.length_cons, List.append_assoc,
            List.singleton_append, Option.some.injEq, Prod.mk.injEq]
          refine ⟨?_, trivial⟩
          congr 1
          omega
      · have hm : matchingLinks etag ctag ((idx, link) :: rest) =
            matchingLinks etag ctag rest := by
          simp [matchingLinks, List.filter_cons, he]
        rw [eachEntityLoop, if_pos hc, if_neg he, ih Hrest c vs, hm]
    · have hm : matchingLinks etag ctag ((idx, link) :: rest) =
          matchingLinks etag ctag rest := by
        simp [matchingLinks, List.filter_cons, hc]
      rw [eachEntityLoop, if_neg hc, ih Hrest c vs, hm]

/-- Claim C9, counterexample: on the engine where Set has replaced the
stored value of component 0 with a value of another dynamic type, the link
table still has exactly one entry matching entity type 0 and component type
1, yet EachEntity produces no result at all (the scan panics), so it does
not invoke the visitor for that matching entry nor return the number of
matches. -/
theorem C9_counterexample :
    (matchingLinks 0 1 clashEngine.links).length = 1 ∧
    EachEntity 0 1 clashEngine = none := by
  decide

/-- Claim C9: when every link whose recorded component has type C and whose
entity has type E still has a live store entry of type C, EachEntity returns
the visitor invocations for exactly the matching link-table entries, in
table order, together with their number; links with a different entity type
and components without a link entry are never visited. -/
theorem C9_each_entity_scoping (etag ctag : Nat) (e : Engine)
    (H : ∀ p ∈ e.links, p.2.component.tag = ctag → p.2.entity.tag = etag →
      (mapGet e.components p.1).map Val.tag = some ctag)
    (hlen : (matchingLinks etag ctag e.links).length < U64) :
    EachEntity etag ctag e =
      some ((matchingLinks etag ctag e.links).length,
        (matchingLinks etag ctag e.links).map
          (fun p => (p.2.entity, liveAt e.components p))) := by
  have h := eachEntityLoop_spec e.components etag ctag e.links H 0 []
  simpa [EachEntity, Nat.zero_mod, Nat.mod_eq_of_lt hlen] using h

/-- Claim C9 witness: on a linked engine with entities of types 0 and 1 and
components of types 1, 1 and 2, the scan for entity type 0 and component
type 1 visits exactly the single matching link and returns 1. -/
theorem C9_witness :
    EachEntity 0 1 sampleLinked = some (1, [(⟨0, 0⟩, ⟨1, 5⟩)]) := by
  have h := C9_each_entity_scoping 0 1 sampleLinked (by decide) (by decide)
  rw [h]
  decide

/-- Claim C10 is a code bug: after creating component 0 with a value of
dynamic type 1 (so its link records that value) and then calling Set with a
value of dynamic type 2 under ID 0, the link filter still sees the stale
recorded type 1 while the live store entry has type 2, and EachEntity for
component type 1 panics on the unchecked cast of the live value (modelled as
the result none) instead of returning. -/
theorem C10_each_entity_panics :
    mapGet clashEngine.links 0 =
      some { entity := ⟨0, 0⟩, component := ⟨1, 5⟩ } ∧
    mapGet clashEngine.components 0 = some ⟨2, 9⟩ ∧
    EachEntity 0 1 clashEngine = none := by
  decide

end Linked
